import Mathlib

/-!
Verification development for the ternary-search-tree map `tst::tst_map`
(src/tst_map.h).

Embedding conventions:
* The character type `Ch` is instantiated at its default `char` with the
  default comparator `std::less<Ch>`; characters are embedded as `Nat` and
  the comparator `comp_(a, b)` as `a < b` on `Nat`.
* C strings (`str.c_str()`) are embedded as `List Nat`.  The code reads
  `*s`, which is the NUL terminator `0` at the end of the string; in the
  embedding `*s` is `s.headD 0` and `++s` / `s+1` is `s.tail`.  A key as
  the container sees it therefore never contains the character `0`
  (`validKey` below); list positions past a `0` are invisible to the code.
* `tnode<T,Ch>*` (a possibly-null owning pointer) is embedded as the
  inductive `NodePtr T` with a `null` constructor; `T* pdata` as
  `Option T`.
* The out-parameters of the C++ functions (the `pos` pointer of
  `__insert`, the `size_` counter updates, the returned `bool` of
  `remove`) are returned as extra tuple components.
* Search/traversal helpers push results into a sequence `c`; they are
  embedded as functions returning the list of pushed pairs in push order.
-/

/-- Embeds `tnode<T, Ch>*`: either the null pointer or a node with split
character, the three child links `lokid`/`hikid`/`eqkid`, and the optional
payload `pdata`. -/
inductive NodePtr (T : Type) : Type where
  | null : NodePtr T
  | node (splitchar : Nat) (lokid hikid eqkid : NodePtr T) (pdata : Option T) : NodePtr T
deriving DecidableEq, Repr

variable {T : Type}

/-- Number of `tnode` objects in the tree (for "structure does not grow"). -/
def NodePtr.nodeCount : NodePtr T → Nat
  | .null => 0
  | .node _ lo hi eq _ => lo.nodeCount + hi.nodeCount + eq.nodeCount + 1

/-- Number of nodes holding a payload; the quantity `size_` tracks. -/
def NodePtr.payloadCount : NodePtr T → Nat
  | .null => 0
  | .node _ lo hi eq pd =>
      lo.payloadCount + hi.payloadCount + eq.payloadCount + (if pd.isSome then 1 else 0)

/-- Embeds the fresh-chain part of `__insert` (tst_map.h:388-422): when
`__insert` reaches a null link with a non-empty remaining key, each
recursion level allocates `new tnode(*s)` and, since the new node's
character equals `*s`, immediately takes the equal branch: it attaches the
payload if the next character is the terminator, otherwise chains into
`eqkid` with the rest of the key.  Precondition of every call site:
`s.headD 0 ≠ 0`. -/
def insertNew (s : List Nat) (t : T) : NodePtr T :=
  match s with
  | [] => .null
  | c :: r =>
    if r.headD 0 = 0 then .node c .null .null .null (some t)
    else .node c .null .null (insertNew r t) none

/-- Embeds `__insert(node_ptr p, const Ch* s, const T& t, pointer& pos)`
(tst_map.h:388-422).  Returns the new subtree, the number of `++size_`
increments performed (0 or 1), and the value `*pos` points at (none when
`pos` is left null, i.e. on an empty key). -/
def insertGo : NodePtr T → List Nat → T → NodePtr T × Nat × Option T
  | p, [], _ => (p, 0, none)  -- *s == 0: ignore empty string
  | .null, c :: r, t =>
    if c = 0 then (.null, 0, none)
    else (insertNew (c :: r) t, 1, some t)
  | .node sc lo hi eq pd, c :: r, t =>
    if c = 0 then (.node sc lo hi eq pd, 0, none)
    else if c < sc then
      let u := insertGo lo (c :: r) t
      (.node sc u.1 hi eq pd, u.2.1, u.2.2)
    else if ¬ c < sc ∧ ¬ sc < c then
      if r.headD 0 = 0 then  -- *(s+1) == 0: arrive end, save data
        match pd with
        | some _ => (.node sc lo hi eq (some t), 0, some t)  -- just update
        | none => (.node sc lo hi eq (some t), 1, some t)    -- ++size_
      else
        let u := insertGo eq r t
        (.node sc lo hi u.1 pd, u.2.1, u.2.2)
    else
      let u := insertGo hi (c :: r) t
      (.node sc lo u.1 eq pd, u.2.1, u.2.2)

/-- Embeds `find(const tstring& str)` (tst_map.h:120-140): iterative
three-way descent; in the equal branch, if `*(++s) == 0` it returns
`p->pdata`, else continues into `eqkid`. -/
def findGo : NodePtr T → List Nat → Option T
  | .null, _ => none
  | .node sc lo hi eq pd, s =>
    let c := s.headD 0
    if c < sc then findGo lo s
    else if ¬ c < sc ∧ ¬ sc < c then
      if s.tail.headD 0 = 0 then pd else findGo eq s.tail
    else findGo hi s

/-- Embeds `remove(const tstring& str)` (tst_map.h:191-214): descends like
`find`; when `*(++s) == 0 && p->pdata` it deletes the payload, nulls the
slot and reports true (the caller decrements `size_`); otherwise it keeps
walking into `eqkid` with the advanced pointer. -/
def removeGo : NodePtr T → List Nat → NodePtr T × Bool
  | .null, _ => (.null, false)
  | .node sc lo hi eq pd, s =>
    let c := s.headD 0
    if c < sc then
      let u := removeGo lo s
      (.node sc u.1 hi eq pd, u.2)
    else if ¬ c < sc ∧ ¬ sc < c then
      if s.tail.headD 0 = 0 ∧ pd.isSome = true then (.node sc lo hi eq none, true)
      else
        let u := removeGo eq s.tail
        (.node sc lo hi u.1 pd, u.2)
    else
      let u := removeGo hi s
      (.node sc lo u.1 eq pd, u.2)

/-- The final step of `__travel` (tst_map.h:365-368): `if (p->pdata)
f(cur_str + p->splitchar, *(p->pdata))`, as the list of pairs it pushes. -/
def emitSelf (cur : List Nat) (sc : Nat) (pd : Option T) : List (List Nat × T) :=
  match pd with
  | some v => [(cur ++ [sc], v)]
  | none => []

/-- Embeds `__travel` (tst_map.h:352-369): visits `lokid`, then `eqkid`
with the current character appended, then `hikid`, and only after all
three subtrees invokes the visitor on this node's own payload (with key
`cur_str + splitchar`).  Returns the visited (key, value) pairs in visit
order. -/
def travel : NodePtr T → List Nat → List (List Nat × T)
  | .null, _ => []
  | .node sc lo hi eq pd, cur =>
    travel lo cur ++ travel eq (cur ++ [sc]) ++ travel hi cur ++ emitSelf cur sc pd

/-- The wildcard character of `__pmsearch`: the literal `'.'`. -/
def dotChar : Nat := 46

/-- Embeds `__pmsearch` (tst_map.h:287-317): at a wildcard or smaller
pattern character explore `lokid`; at a wildcard or equal character match
one character (emit on pattern end with payload, else continue into
`eqkid`); at a wildcard or greater character explore `hikid`. -/
def pmsearchGo (p : NodePtr T) (s cur : List Nat) : List (List Nat × T) :=
  match p with
  | .null => []
  | .node sc lo hi eq pd =>
    let c := s.headD 0
    if c = 0 then []
    else
      (if c = dotChar ∨ c < sc then pmsearchGo lo s cur else []) ++
      (if c = dotChar ∨ (¬ c < sc ∧ ¬ sc < c) then
        (if s.tail.headD 0 = 0 then
          (match pd with
           | some v => [(cur ++ [sc], v)]
           | none => [])
        else pmsearchGo eq s.tail (cur ++ [sc]))
      else []) ++
      (if c = dotChar ∨ sc < c then pmsearchGo hi s cur else [])

/-- Embeds the static `__strlen` (tst_map.h:562-570): length of a C string
up to the first NUL. -/
def cstrlen : List Nat → Nat
  | [] => 0
  | c :: r => if c = 0 then 0 else cstrlen r + 1

/-- Embeds `__near_search` (tst_map.h:319-349) with budget `d : int`:
explores `lokid`/`hikid` when budget remains or the comparison allows it,
always explores `eqkid` with the advanced pattern (`*s ? s+1 : s`) and the
budget decremented on mismatch, and reports this node's payload when the
remaining pattern length fits into the (possibly decremented) budget. -/
def nearSearchGo (p : NodePtr T) (s : List Nat) (d : Int) (cur : List Nat) :
    List (List Nat × T) :=
  match p with
  | .null => []
  | .node sc lo hi eq pd =>
    if d < 0 then []
    else
      let c := s.headD 0
      (if 0 < d ∨ c < sc then nearSearchGo lo s d cur else []) ++
      nearSearchGo eq (if c = 0 then s else s.tail)
        (if ¬ c < sc ∧ ¬ sc < c then d else d - 1) (cur ++ [sc]) ++
      (if 0 < d ∨ sc < c then nearSearchGo hi s d cur else []) ++
      (match pd with
       | some v =>
         if (cstrlen (if c = 0 then s else s.tail) : Int) ≤
             (if ¬ c < sc ∧ ¬ sc < c then d else d - 1) then
           [(cur ++ [sc], v)]
         else []
       | none => [])

/-- Embeds the container `tst_map<T>`: the owned `root_` pointer and the
`size_` counter. -/
structure tst_map (T : Type) where
  root : NodePtr T
  size : Nat
deriving DecidableEq, Repr

/-- The default-constructed container: `root_(0), size_(0)`. -/
def tst_map.init : tst_map T := ⟨NodePtr.null, 0⟩

/-- Embeds `insert(const tstring& str, const T& val)` (tst_map.h:96-101):
returns the updated container and the returned payload handle. -/
def tst_map.insert (m : tst_map T) (k : List Nat) (v : T) : tst_map T × Option T :=
  let u := insertGo m.root k v
  (⟨u.1, m.size + u.2.1⟩, u.2.2)

/-- Embeds `find(const tstring& str)` (tst_map.h:120-140); `none` is the
null pointer result. -/
def tst_map.find (m : tst_map T) (k : List Nat) : Option T := findGo m.root k

/-- Embeds `remove(const tstring& str)` (tst_map.h:191-214): on success
`--size_` is performed. -/
def tst_map.remove (m : tst_map T) (k : List Nat) : tst_map T × Bool :=
  let u := removeGo m.root k
  (⟨u.1, if u.2 then m.size - 1 else m.size⟩, u.2)

/-- Embeds `sequence(Seq& c)` (tst_map.h:177-183): `c.clear()` followed by
`__travel` pushing every visited pair; the result is the final contents of
`c`, independent of its prior contents `c0`. -/
def tst_map.sequence (m : tst_map T) (_c0 : List (List Nat × T)) : List (List Nat × T) :=
  let cleared : List (List Nat × T) := []  -- c.clear()
  cleared ++ travel m.root []

/-- Embeds `pmsearch(const tstring& str, Seq& c)` (tst_map.h:161-167):
`c.clear()` then `__pmsearch(root_, str.c_str(), strtmp, c)`. -/
def tst_map.pmsearch (m : tst_map T) (s : List Nat) (_c0 : List (List Nat × T)) :
    List (List Nat × T) :=
  let cleared : List (List Nat × T) := []  -- c.clear()
  cleared ++ pmsearchGo m.root s []

/-- Embeds `nearsearch(const tstring& str, int d, Seq& c)`
(tst_map.h:153-159): `c.clear()` then `__near_search(root_, str.c_str(), d, strtmp, c)`. -/
def tst_map.nearsearch (m : tst_map T) (s : List Nat) (d : Int)
    (_c0 : List (List Nat × T)) : List (List Nat × T) :=
  let cleared : List (List Nat × T) := []  -- c.clear()
  cleared ++ nearSearchGo m.root s d []

/-- Embeds the copy constructor (tst_map.h:46-50): starts from the
default-constructed state and re-inserts every pair visited by
`foreach` (`__insert_helper`), in traversal order. -/
def tst_map.copy (m : tst_map T) : tst_map T :=
  (travel m.root []).foldl (fun b kv => (b.insert kv.1 kv.2).1) tst_map.init

/-- A key as the container can see it: a C string with no embedded NUL. -/
def validKey (k : List Nat) : Prop := ∀ c ∈ k, c ≠ 0

instance validKey.dec (k : List Nat) : Decidable (validKey k) :=
  List.decidableBAll _ k

/-- `P` holds for the split characters of every node reachable through
`lokid`/`hikid` links only, i.e. every node at the same character
position as `p`. -/
def allRoot (P : Nat → Bool) : NodePtr T → Bool
  | .null => true
  | .node sc lo hi _ _ => P sc && allRoot P lo && allRoot P hi

/-- Structural well-formedness of a tree as built by the container: split
characters are nonzero (they come from C strings) and the per-position
binary-search-tree invariant holds. -/
def wfTree : NodePtr T → Bool
  | .null => true
  | .node sc lo hi eq _ =>
    decide (0 < sc) && allRoot (fun a => decide (a < sc)) lo &&
      allRoot (fun a => decide (sc < a)) hi && wfTree lo && wfTree hi && wfTree eq

/-- Container states reachable by the public operations: well-formed tree
and `size_` equal to the number of stored payloads. -/
def MapInv (m : tst_map T) : Prop := wfTree m.root = true ∧ m.size = m.root.payloadCount

instance MapInv.dec (m : tst_map T) : Decidable (MapInv m) := by
  unfold MapInv; infer_instance

/-- Number of positionwise mismatches between two strings over their common
length. -/
def mismatchCount : List Nat → List Nat → Nat
  | [], _ => 0
  | _, [] => 0
  | a :: as_, b :: bs => (if a = b then 0 else 1) + mismatchCount as_ bs

/-- The discrepancy cost between a pattern and a key in the sense of the
spec of `near_search`: substituted characters over the common length plus
one per leftover character on the longer side. -/
def nearCost (q k : List Nat) : Nat :=
  mismatchCount q k + (max q.length k.length - min q.length k.length)

/-- The per-position wildcard match predicate of `pattern_search`: same
length, and at every position the pattern character is the wildcard or
equals the key character. -/
def pmAccept (q k : List Nat) : Prop :=
  q.length = k.length ∧
    ∀ i : Nat, i < q.length → q.getD i 0 = dotChar ∨ q.getD i 0 = k.getD i 0

instance pmAccept.dec (q k : List Nat) : Decidable (pmAccept q k) := by
  unfold pmAccept; infer_instance

/-! ## Basic structural lemmas

The comparator branch `¬ c < sc ∧ ¬ sc < c` of the source is first
normalised into the trichotomy form used throughout the proofs. -/

theorem findGo_node (sc : Nat) (lo hi eq : NodePtr T) (pd : Option T) (s : List Nat) :
    findGo (.node sc lo hi eq pd) s =
      if s.headD 0 < sc then findGo lo s
      else if sc < s.headD 0 then findGo hi s
      else if s.tail.headD 0 = 0 then pd else findGo eq s.tail := by
  show (if s.headD 0 < sc then findGo lo s
    else if ¬ s.headD 0 < sc ∧ ¬ sc < s.headD 0 then
      if s.tail.headD 0 = 0 then pd else findGo eq s.tail
    else findGo hi s) = _
  by_cases h1 : s.headD 0 < sc
  · rw [if_pos h1, if_pos h1]
  · rw [if_neg h1, if_neg h1]
    by_cases h2 : sc < s.headD 0
    · rw [if_pos h2, if_neg (by omega : ¬ (¬ s.headD 0 < sc ∧ ¬ sc < s.headD 0))]
    · rw [if_neg h2, if_pos ⟨h1, h2⟩]

theorem removeGo_node (sc : Nat) (lo hi eq : NodePtr T) (pd : Option T) (s : List Nat) :
    removeGo (.node sc lo hi eq pd) s =
      if s.headD 0 < sc then ((.node sc (removeGo lo s).1 hi eq pd), (removeGo lo s).2)
      else if sc < s.headD 0 then ((.node sc lo (removeGo hi s).1 eq pd), (removeGo hi s).2)
      else if s.tail.headD 0 = 0 ∧ pd.isSome = true then ((.node sc lo hi eq none), true)
      else ((.node sc lo hi (removeGo eq s.tail).1 pd), (removeGo eq s.tail).2) := by
  show (if s.headD 0 < sc then _ else if ¬ s.headD 0 < sc ∧ ¬ sc < s.headD 0 then _ else _) = _
  by_cases h1 : s.headD 0 < sc
  · rw [if_pos h1, if_pos h1]
  · rw [if_neg h1, if_neg h1]
    by_cases h2 : sc < s.headD 0
    · rw [if_pos h2, if_neg (by omega : ¬ (¬ s.headD 0 < sc ∧ ¬ sc < s.headD 0))]
    · rw [if_neg h2, if_pos ⟨h1, h2⟩]

theorem insertGo_cons (sc : Nat) (lo hi eq : NodePtr T) (pd : Option T)
    (c : Nat) (r : List Nat) (t : T) :
    insertGo (.node sc lo hi eq pd) (c :: r) t =
      if c = 0 then ((.node sc lo hi eq pd), 0, none)
      else if c < sc then
        ((.node sc (insertGo lo (c :: r) t).1 hi eq pd),
          (insertGo lo (c :: r) t).2.1, (insertGo lo (c :: r) t).2.2)
      else if sc < c then
        ((.node sc lo (insertGo hi (c :: r) t).1 eq pd),
          (insertGo hi (c :: r) t).2.1, (insertGo hi (c :: r) t).2.2)
      else if r.headD 0 = 0 then
        ((.node sc lo hi eq (some t)), (if pd.isSome then 0 else 1), some t)
      else
        ((.node sc lo hi (insertGo eq r t).1 pd),
          (insertGo eq r t).2.1, (insertGo eq r t).2.2) := by
  simp only [insertGo]
  by_cases h0 : c = 0
  · rw [if_pos h0, if_pos h0]
  · rw [if_neg h0, if_neg h0]
    by_cases h1 : c < sc
    · rw [if_pos h1, if_pos h1]
    · rw [if_neg h1, if_neg h1]
      by_cases h2 : sc < c
      · rw [if_neg (show ¬ (¬ c < sc ∧ ¬ sc < c) by omega), if_pos h2]
      · rw [if_pos (show (¬ c < sc ∧ ¬ sc < c) from ⟨h1, h2⟩), if_neg h2]
        by_cases h3 : r.headD 0 = 0
        · rw [if_pos h3, if_pos h3]
          cases pd <;> rfl
        · rw [if_neg h3, if_neg h3]

theorem wfTree_node {sc : Nat} {lo hi eq : NodePtr T} {pd : Option T}
    (h : wfTree (.node sc lo hi eq pd) = true) :
    0 < sc ∧ allRoot (fun a => decide (a < sc)) lo = true ∧
      allRoot (fun a => decide (sc < a)) hi = true ∧
      wfTree lo = true ∧ wfTree hi = true ∧ wfTree eq = true := by
  simp only [wfTree, Bool.and_eq_true, decide_eq_true_eq] at h
  tauto

theorem allRoot_node {P : Nat → Bool} {sc : Nat} {lo hi eq : NodePtr T} {pd : Option T}
    (h : allRoot P (.node sc lo hi eq pd) = true) :
    P sc = true ∧ allRoot P lo = true ∧ allRoot P hi = true := by
  simp only [allRoot, Bool.and_eq_true] at h
  tauto

theorem findGo_headzero (p : NodePtr T) (s : List Nat) (hwf : wfTree p = true)
    (hs : s.headD 0 = 0) : findGo p s = none := by
  induction p with
  | null => rfl
  | node sc lo hi eq pd ihlo ihhi iheq =>
    obtain ⟨hsc, _, _, hlo, _, _⟩ := wfTree_node hwf
    rw [findGo_node, if_pos (by omega : s.headD 0 < sc)]
    exact ihlo hlo

theorem removeGo_headzero (p : NodePtr T) (s : List Nat) (hwf : wfTree p = true)
    (hs : s.headD 0 = 0) : removeGo p s = (p, false) := by
  induction p with
  | null => rfl
  | node sc lo hi eq pd ihlo ihhi iheq =>
    obtain ⟨hsc, _, _, hlo, _, _⟩ := wfTree_node hwf
    rw [removeGo_node, if_pos (by omega : s.headD 0 < sc), ihlo hlo]

theorem removeGo_false (p : NodePtr T) (s : List Nat)
    (h : (removeGo p s).2 = false) : (removeGo p s).1 = p := by
  induction p generalizing s with
  | null => rfl
  | node sc lo hi eq pd ihlo ihhi iheq =>
    rw [removeGo_node] at h ⊢
    by_cases h1 : s.headD 0 < sc
    · rw [if_pos h1] at h ⊢
      show NodePtr.node sc (removeGo lo s).1 hi eq pd = _
      rw [ihlo s h]
    · rw [if_neg h1] at h ⊢
      by_cases h2 : sc < s.headD 0
      · rw [if_pos h2] at h ⊢
        show NodePtr.node sc lo (removeGo hi s).1 eq pd = _
        rw [ihhi s h]
      · rw [if_neg h2] at h ⊢
        by_cases h3 : s.tail.headD 0 = 0 ∧ pd.isSome = true
        · rw [if_pos h3] at h
          exact absurd h (by simp)
        · rw [if_neg h3] at h ⊢
          show NodePtr.node sc lo hi (removeGo eq s.tail).1 pd = _
          rw [iheq s.tail h]

theorem findGo_some_head {P : Nat → Bool} (p : NodePtr T) (s : List Nat) (v : T)
    (hall : allRoot P p = true) (h : findGo p s = some v) : P (s.headD 0) = true := by
  induction p generalizing s with
  | null => exact absurd h (by simp [findGo])
  | node sc lo hi eq pd ihlo ihhi iheq =>
    obtain ⟨hP, hlo, hhi⟩ := allRoot_node hall
    rw [findGo_node] at h
    by_cases h1 : s.headD 0 < sc
    · rw [if_pos h1] at h
      exact ihlo _ hlo h
    · rw [if_neg h1] at h
      by_cases h2 : sc < s.headD 0
      · rw [if_pos h2] at h
        exact ihhi _ hhi h
      · have : s.headD 0 = sc := by omega
        rw [this]
        exact hP

/-! ## Insertion lemmas -/

theorem insertGo_headzero (p : NodePtr T) (k : List Nat) (t : T) (hk : k.headD 0 = 0) :
    insertGo p k t = (p, 0, none) := by
  cases k with
  | nil => cases p <;> rfl
  | cons c r =>
    simp only [List.headD_cons] at hk
    cases p with
    | null => simp only [insertGo, if_pos hk]
    | node sc lo hi eq pd => rw [insertGo_cons, if_pos hk]

theorem insertNew_find (s : List Nat) (t : T) (hs : s.headD 0 ≠ 0) :
    findGo (insertNew s t) s = some t := by
  induction s with
  | nil => simp at hs
  | cons c r ih =>
    simp only [List.headD_cons] at hs
    by_cases h3 : r.headD 0 = 0
    · simp only [insertNew, if_pos h3]
      rw [findGo_node]
      simp only [List.headD_cons, List.tail_cons]
      rw [if_neg (lt_irrefl c), if_neg (lt_irrefl c), if_pos h3]
    · simp only [insertNew, if_neg h3]
      rw [findGo_node]
      simp only [List.headD_cons, List.tail_cons]
      rw [if_neg (lt_irrefl c), if_neg (lt_irrefl c), if_neg h3]
      exact ih h3

theorem insertGo_find (p : NodePtr T) (k : List Nat) (t : T) (hk : k.headD 0 ≠ 0) :
    findGo (insertGo p k t).1 k = some t := by
  induction p generalizing k with
  | null =>
    cases k with
    | nil => simp at hk
    | cons c r =>
      simp only [List.headD_cons] at hk
      show findGo (insertGo .null (c :: r) t).1 (c :: r) = some t
      simp only [insertGo, if_neg hk]
      exact insertNew_find _ t (by simpa using hk)
  | node sc lo hi eq pd ihlo ihhi iheq =>
    cases k with
    | nil => simp at hk
    | cons c r =>
      simp only [List.headD_cons] at hk
      rw [insertGo_cons, if_neg hk]
      by_cases h1 : c < sc
      · rw [if_pos h1]
        show findGo (.node sc (insertGo lo (c :: r) t).1 hi eq pd) (c :: r) = some t
        rw [findGo_node]
        simp only [List.headD_cons]
        rw [if_pos h1]
        exact ihlo _ (by simpa using hk)
      · rw [if_neg h1]
        by_cases h2 : sc < c
        · rw [if_pos h2]
          show findGo (.node sc lo (insertGo hi (c :: r) t).1 eq pd) (c :: r) = some t
          rw [findGo_node]
          simp only [List.headD_cons]
          rw [if_neg h1, if_pos h2]
          exact ihhi _ (by simpa using hk)
        · rw [if_neg h2]
          by_cases h3 : r.headD 0 = 0
          · rw [if_pos h3]
            show findGo (.node sc lo hi eq (some t)) (c :: r) = some t
            rw [findGo_node]
            simp only [List.headD_cons, List.tail_cons]
            rw [if_neg h1, if_neg h2, if_pos h3]
          · rw [if_neg h3]
            show findGo (.node sc lo hi (insertGo eq r t).1 pd) (c :: r) = some t
            rw [findGo_node]
            simp only [List.headD_cons, List.tail_cons]
            rw [if_neg h1, if_neg h2, if_neg h3]
            exact iheq _ h3

theorem payloadCount_insertNew (s : List Nat) (t : T) (hs : s.headD 0 ≠ 0) :
    (insertNew s t : NodePtr T).payloadCount = 1 := by
  induction s with
  | nil => simp at hs
  | cons c r ih =>
    by_cases h3 : r.headD 0 = 0
    · simp only [insertNew, if_pos h3]
      rfl
    · simp only [insertNew, if_neg h3]
      simp [NodePtr.payloadCount, ih h3]

theorem payloadCount_insert (p : NodePtr T) (k : List Nat) (t : T) :
    (insertGo p k t).1.payloadCount = p.payloadCount + (insertGo p k t).2.1 := by
  induction p generalizing k with
  | null =>
    cases k with
    | nil => rfl
    | cons c r =>
      by_cases h0 : c = 0
      · simp [insertGo, h0, NodePtr.payloadCount]
      · simp only [insertGo, if_neg h0]
        simp [NodePtr.payloadCount, payloadCount_insertNew (c :: r) t (by simpa using h0)]
  | node sc lo hi eq pd ihlo ihhi iheq =>
    cases k with
    | nil => rfl
    | cons c r =>
      rw [insertGo_cons]
      split
      · rfl
      · split
        · simp only [NodePtr.payloadCount]
          have := ihlo (c :: r)
          omega
        · split
          · simp only [NodePtr.payloadCount]
            have := ihhi (c :: r)
            omega
          · split
            · cases pd <;> simp [NodePtr.payloadCount]
            · simp only [NodePtr.payloadCount]
              have := iheq r
              omega

theorem insertGo_find_none (p : NodePtr T) (k : List Nat) (t : T)
    (hf : findGo p k = none) (hk : k.headD 0 ≠ 0) : (insertGo p k t).2.1 = 1 := by
  induction p generalizing k with
  | null =>
    cases k with
    | nil => simp at hk
    | cons c r =>
      simp only [List.headD_cons] at hk
      simp [insertGo, if_neg hk]
  | node sc lo hi eq pd ihlo ihhi iheq =>
    cases k with
    | nil => simp at hk
    | cons c r =>
      simp only [List.headD_cons] at hk
      rw [findGo_node] at hf
      simp only [List.headD_cons, List.tail_cons] at hf
      rw [insertGo_cons, if_neg hk]
      by_cases h1 : c < sc
      · rw [if_pos h1] at hf ⊢
        exact ihlo _ hf (by simpa using hk)
      · rw [if_neg h1] at hf ⊢
        by_cases h2 : sc < c
        · rw [if_pos h2] at hf ⊢
          exact ihhi _ hf (by simpa using hk)
        · rw [if_neg h2] at hf ⊢
          by_cases h3 : r.headD 0 = 0
          · rw [if_pos h3] at hf ⊢
            rw [hf]
            rfl
          · rw [if_neg h3] at hf ⊢
            exact iheq _ hf h3

theorem insertGo_find_some (p : NodePtr T) (k : List Nat) (t w : T)
    (hf : findGo p k = some w) :
    (insertGo p k t).2.1 = 0 ∧ (insertGo p k t).1.nodeCount = p.nodeCount := by
  induction p generalizing k with
  | null => exact absurd hf (by simp [findGo])
  | node sc lo hi eq pd ihlo ihhi iheq =>
    cases k with
    | nil => exact ⟨rfl, rfl⟩
    | cons c r =>
      rw [findGo_node] at hf
      simp only [List.headD_cons, List.tail_cons] at hf
      by_cases h0 : c = 0
      · rw [insertGo_cons, if_pos h0]
        exact ⟨rfl, rfl⟩
      · rw [insertGo_cons, if_neg h0]
        by_cases h1 : c < sc
        · rw [if_pos h1] at hf ⊢
          obtain ⟨hi1, hi2⟩ := ihlo _ hf
          refine ⟨hi1, ?_⟩
          simp only [NodePtr.nodeCount]
          omega
        · rw [if_neg h1] at hf ⊢
          by_cases h2 : sc < c
          · rw [if_pos h2] at hf ⊢
            obtain ⟨hi1, hi2⟩ := ihhi _ hf
            refine ⟨hi1, ?_⟩
            simp only [NodePtr.nodeCount]
            omega
          · rw [if_neg h2] at hf ⊢
            by_cases h3 : r.headD 0 = 0
            · rw [if_pos h3] at hf ⊢
              rw [hf]
              exact ⟨rfl, rfl⟩
            · rw [if_neg h3] at hf ⊢
              obtain ⟨hi1, hi2⟩ := iheq _ hf
              refine ⟨hi1, ?_⟩
              simp only [NodePtr.nodeCount]
              omega

/-! ## Key-validity helpers -/

theorem validKey_cons {c : Nat} {r : List Nat} :
    validKey (c :: r) ↔ c ≠ 0 ∧ validKey r := by
  simp [validKey]

theorem validKey_headzero {r : List Nat} (hv : validKey r) (h0 : r.headD 0 = 0) :
    r = [] := by
  cases r with
  | nil => rfl
  | cons a l =>
    simp only [List.headD_cons] at h0
    exact absurd h0 (validKey_cons.1 hv).1

/-! ## Removal lemmas -/

theorem removeGo_present (p : NodePtr T) (k : List Nat) (v : T)
    (hf : findGo p k = some v) :
    (removeGo p k).2 = true ∧ findGo (removeGo p k).1 k = none ∧
      p.payloadCount = (removeGo p k).1.payloadCount + 1 := by
  induction p generalizing k with
  | null => exact absurd hf (by simp [findGo])
  | node sc lo hi eq pd ihlo ihhi iheq =>
    rw [findGo_node] at hf
    rw [removeGo_node]
    by_cases h1 : k.headD 0 < sc
    · rw [if_pos h1] at hf ⊢
      obtain ⟨ha, hb, hc⟩ := ihlo _ hf
      refine ⟨ha, ?_, ?_⟩
      · show findGo (.node sc (removeGo lo k).1 hi eq pd) k = none
        rw [findGo_node, if_pos h1]
        exact hb
      · simp only [NodePtr.payloadCount]
        omega
    · rw [if_neg h1] at hf ⊢
      by_cases h2 : sc < k.headD 0
      · rw [if_pos h2] at hf ⊢
        obtain ⟨ha, hb, hc⟩ := ihhi _ hf
        refine ⟨ha, ?_, ?_⟩
        · show findGo (.node sc lo (removeGo hi k).1 eq pd) k = none
          rw [findGo_node, if_neg h1, if_pos h2]
          exact hb
        · simp only [NodePtr.payloadCount]
          omega
      · rw [if_neg h2] at hf ⊢
        by_cases h3 : k.tail.headD 0 = 0
        · rw [if_pos h3] at hf
          rw [if_pos ⟨h3, by rw [hf]; rfl⟩]
          refine ⟨rfl, ?_, ?_⟩
          · rw [findGo_node, if_neg h1, if_neg h2, if_pos h3]
          · simp only [NodePtr.payloadCount]
            rw [hf]
            simp
        · rw [if_neg h3] at hf
          rw [if_neg (by intro hcon; exact h3 hcon.1)]
          obtain ⟨ha, hb, hc⟩ := iheq _ hf
          refine ⟨ha, ?_, ?_⟩
          · show findGo (.node sc lo hi (removeGo eq k.tail).1 pd) k = none
            rw [findGo_node, if_neg h1, if_neg h2, if_neg h3]
            exact hb
          · simp only [NodePtr.payloadCount]
            omega

theorem removeGo_absent (p : NodePtr T) (k : List Nat) (hwf : wfTree p = true)
    (hf : findGo p k = none) : removeGo p k = (p, false) := by
  induction p generalizing k with
  | null => rfl
  | node sc lo hi eq pd ihlo ihhi iheq =>
    obtain ⟨hsc, _, _, hwlo, hwhi, hweq⟩ := wfTree_node hwf
    rw [findGo_node] at hf
    rw [removeGo_node]
    by_cases h1 : k.headD 0 < sc
    · rw [if_pos h1] at hf ⊢
      rw [ihlo _ hwlo hf]
    · rw [if_neg h1] at hf ⊢
      by_cases h2 : sc < k.headD 0
      · rw [if_pos h2] at hf ⊢
        rw [ihhi _ hwhi hf]
      · rw [if_neg h2] at hf ⊢
        by_cases h3 : k.tail.headD 0 = 0
        · rw [if_pos h3] at hf
          rw [if_neg (by rw [hf]; simp)]
          rw [removeGo_headzero eq k.tail hweq h3]
        · rw [if_neg h3] at hf
          rw [if_neg (by intro hcon; exact h3 hcon.1)]
          rw [iheq _ hweq hf]

/-! ## Well-formedness preservation -/

theorem allRoot_insertNew {P : Nat → Bool} (c : Nat) (r : List Nat) (t : T)
    (hP : P c = true) : allRoot P (insertNew (c :: r) t : NodePtr T) = true := by
  by_cases h3 : r.headD 0 = 0
  · simp only [insertNew, if_pos h3]
    simp [allRoot, hP]
  · simp only [insertNew, if_neg h3]
    simp [allRoot, hP]

theorem allRoot_insert {P : Nat → Bool} (p : NodePtr T) (k : List Nat) (t : T)
    (hall : allRoot P p = true) (hP : P (k.headD 0) = true) :
    allRoot P (insertGo p k t).1 = true := by
  induction p generalizing k with
  | null =>
    cases k with
    | nil => exact hall
    | cons c r =>
      by_cases h0 : c = 0
      · simp [insertGo, h0, hall]
      · simp only [insertGo, if_neg h0]
        exact allRoot_insertNew c r t (by simpa using hP)
  | node sc lo hi eq pd ihlo ihhi iheq =>
    obtain ⟨hPsc, hlo, hhi⟩ := allRoot_node hall
    cases k with
    | nil => exact hall
    | cons c r =>
      rw [insertGo_cons]
      split
      · exact hall
      · split
        · show allRoot P (.node sc (insertGo lo (c :: r) t).1 hi eq pd) = true
          simp only [allRoot, Bool.and_eq_true]
          exact ⟨⟨hPsc, ihlo _ hlo (by simpa using hP)⟩, hhi⟩
        · split
          · show allRoot P (.node sc lo (insertGo hi (c :: r) t).1 eq pd) = true
            simp only [allRoot, Bool.and_eq_true]
            exact ⟨⟨hPsc, hlo⟩, ihhi _ hhi (by simpa using hP)⟩
          · split
            · show allRoot P (.node sc lo hi eq (some t)) = true
              simp only [allRoot, Bool.and_eq_true]
              exact ⟨⟨hPsc, hlo⟩, hhi⟩
            · show allRoot P (.node sc lo hi (insertGo eq r t).1 pd) = true
              simp only [allRoot, Bool.and_eq_true]
              exact ⟨⟨hPsc, hlo⟩, hhi⟩

theorem wfTree_insertNew (s : List Nat) (t : T) (hs : s.headD 0 ≠ 0)
    (hv : validKey s) : wfTree (insertNew s t : NodePtr T) = true := by
  induction s with
  | nil => simp at hs
  | cons c r ih =>
    simp only [List.headD_cons] at hs
    obtain ⟨-, hvr⟩ := validKey_cons.1 hv
    by_cases h3 : r.headD 0 = 0
    · simp only [insertNew, if_pos h3]
      simp [wfTree, allRoot, Nat.pos_of_ne_zero hs]
    · simp only [insertNew, if_neg h3]
      simp [wfTree, allRoot, Nat.pos_of_ne_zero hs, ih h3 hvr]

theorem wfTree_insert (p : NodePtr T) (k : List Nat) (t : T)
    (hwf : wfTree p = true) (hv : validKey k) :
    wfTree (insertGo p k t).1 = true := by
  induction p generalizing k with
  | null =>
    cases k with
    | nil => exact hwf
    | cons c r =>
      by_cases h0 : c = 0
      · simp [insertGo, h0, hwf]
      · simp only [insertGo, if_neg h0]
        exact wfTree_insertNew (c :: r) t (by simpa using h0) hv
  | node sc lo hi eq pd ihlo ihhi iheq =>
    obtain ⟨hsc, halo, hahi, hwlo, hwhi, hweq⟩ := wfTree_node hwf
    cases k with
    | nil => exact hwf
    | cons c r =>
      obtain ⟨hc0, hvr⟩ := validKey_cons.1 hv
      rw [insertGo_cons, if_neg hc0]
      by_cases h1 : c < sc
      · rw [if_pos h1]
        show wfTree (.node sc (insertGo lo (c :: r) t).1 hi eq pd) = true
        simp only [wfTree, Bool.and_eq_true, decide_eq_true_eq]
        refine ⟨⟨⟨⟨⟨hsc, ?_⟩, hahi⟩, ihlo _ hwlo hv⟩, hwhi⟩, hweq⟩
        exact allRoot_insert lo (c :: r) t halo (by simp [h1])
      · rw [if_neg h1]
        by_cases h2 : sc < c
        · rw [if_pos h2]
          show wfTree (.node sc lo (insertGo hi (c :: r) t).1 eq pd) = true
          simp only [wfTree, Bool.and_eq_true, decide_eq_true_eq]
          refine ⟨⟨⟨⟨⟨hsc, halo⟩, ?_⟩, hwlo⟩, ihhi _ hwhi hv⟩, hweq⟩
          exact allRoot_insert hi (c :: r) t hahi (by simp [h2])
        · rw [if_neg h2]
          by_cases h3 : r.headD 0 = 0
          · rw [if_pos h3]
            show wfTree (.node sc lo hi eq (some t)) = true
            simp only [wfTree, Bool.and_eq_true, decide_eq_true_eq]
            exact ⟨⟨⟨⟨⟨hsc, halo⟩, hahi⟩, hwlo⟩, hwhi⟩, hweq⟩
          · rw [if_neg h3]
            show wfTree (.node sc lo hi (insertGo eq r t).1 pd) = true
            simp only [wfTree, Bool.and_eq_true, decide_eq_true_eq]
            exact ⟨⟨⟨⟨⟨hsc, halo⟩, hahi⟩, hwlo⟩, hwhi⟩, iheq _ hweq hvr⟩

theorem allRoot_remove {P : Nat → Bool} (p : NodePtr T) (k : List Nat)
    (hall : allRoot P p = true) : allRoot P (removeGo p k).1 = true := by
  induction p generalizing k with
  | null => exact hall
  | node sc lo hi eq pd ihlo ihhi iheq =>
    obtain ⟨hPsc, hlo, hhi⟩ := allRoot_node hall
    rw [removeGo_node]
    split
    · show allRoot P (.node sc (removeGo lo k).1 hi eq pd) = true
      simp only [allRoot, Bool.and_eq_true]
      exact ⟨⟨hPsc, ihlo _ hlo⟩, hhi⟩
    · split
      · show allRoot P (.node sc lo (removeGo hi k).1 eq pd) = true
        simp only [allRoot, Bool.and_eq_true]
        exact ⟨⟨hPsc, hlo⟩, ihhi _ hhi⟩
      · split
        · show allRoot P (.node sc lo hi eq none) = true
          simp only [allRoot, Bool.and_eq_true]
          exact ⟨⟨hPsc, hlo⟩, hhi⟩
        · show allRoot P (.node sc lo hi (removeGo eq k.tail).1 pd) = true
          simp only [allRoot, Bool.and_eq_true]
          exact ⟨⟨hPsc, hlo⟩, hhi⟩

theorem wfTree_remove (p : NodePtr T) (k : List Nat) (hwf : wfTree p = true) :
    wfTree (removeGo p k).1 = true := by
  induction p generalizing k with
  | null => exact hwf
  | node sc lo hi eq pd ihlo ihhi iheq =>
    obtain ⟨hsc, halo, hahi, hwlo, hwhi, hweq⟩ := wfTree_node hwf
    rw [removeGo_node]
    split
    · show wfTree (.node sc (removeGo lo k).1 hi eq pd) = true
      simp only [wfTree, Bool.and_eq_true, decide_eq_true_eq]
      exact ⟨⟨⟨⟨⟨hsc, allRoot_remove lo k halo⟩, hahi⟩, ihlo _ hwlo⟩, hwhi⟩, hweq⟩
    · split
      · show wfTree (.node sc lo (removeGo hi k).1 eq pd) = true
        simp only [wfTree, Bool.and_eq_true, decide_eq_true_eq]
        exact ⟨⟨⟨⟨⟨hsc, halo⟩, allRoot_remove hi k hahi⟩, hwlo⟩, ihhi _ hwhi⟩, hweq⟩
      · split
        · show wfTree (.node sc lo hi eq none) = true
          simp only [wfTree, Bool.and_eq_true, decide_eq_true_eq]
          exact ⟨⟨⟨⟨⟨hsc, halo⟩, hahi⟩, hwlo⟩, hwhi⟩, hweq⟩
        · show wfTree (.node sc lo hi (removeGo eq k.tail).1 pd) = true
          simp only [wfTree, Bool.and_eq_true, decide_eq_true_eq]
          exact ⟨⟨⟨⟨⟨hsc, halo⟩, hahi⟩, hwlo⟩, hwhi⟩, iheq _ hweq⟩

theorem validKey_tail {k : List Nat} (h : validKey k) : validKey k.tail := by
  cases k with
  | nil => exact h
  | cons a l => exact (validKey_cons.1 h).2

theorem eq_cons_of_headD {k2 : List Nat} {sc : Nat} (h : k2.headD 0 = sc) (h0 : sc ≠ 0) :
    k2 = sc :: k2.tail := by
  cases k2 with
  | nil => exact absurd h.symm h0
  | cons a l =>
    simp only [List.headD_cons] at h
    rw [List.tail_cons, h]

/-! ## Frame lemmas: an operation on key `k` does not disturb any other
valid key `k2` -/

theorem insertNew_find_other (s k2 : List Nat) (t : T) (hs : s.headD 0 ≠ 0)
    (hvs : validKey s) (hv2 : validKey k2) (hne : k2 ≠ s) :
    findGo (insertNew s t) k2 = none := by
  induction s generalizing k2 with
  | nil => simp at hs
  | cons c r ih =>
    simp only [List.headD_cons] at hs
    obtain ⟨-, hvr⟩ := validKey_cons.1 hvs
    by_cases h3 : r.headD 0 = 0
    · have hr : r = [] := validKey_headzero hvr h3
      simp only [insertNew, if_pos h3]
      rw [findGo_node]
      by_cases g1 : k2.headD 0 < c
      · rw [if_pos g1]; rfl
      · rw [if_neg g1]
        by_cases g2 : c < k2.headD 0
        · rw [if_pos g2]; rfl
        · rw [if_neg g2]
          have hk2 : k2 = c :: k2.tail := eq_cons_of_headD (by omega) hs
          by_cases g3 : k2.tail.headD 0 = 0
          · exfalso
            have : k2.tail = [] := validKey_headzero (validKey_tail hv2) g3
            apply hne
            rw [hk2, this, hr]
          · rw [if_neg g3]; rfl
    · simp only [insertNew, if_neg h3]
      rw [findGo_node]
      by_cases g1 : k2.headD 0 < c
      · rw [if_pos g1]; rfl
      · rw [if_neg g1]
        by_cases g2 : c < k2.headD 0
        · rw [if_pos g2]; rfl
        · rw [if_neg g2]
          have hk2 : k2 = c :: k2.tail := eq_cons_of_headD (by omega) hs
          by_cases g3 : k2.tail.headD 0 = 0
          · rw [if_pos g3]
          · rw [if_neg g3]
            refine ih k2.tail h3 hvr (validKey_tail hv2) ?_
            intro hcon
            apply hne
            rw [hk2, hcon]

theorem insertGo_find_other (p : NodePtr T) (k k2 : List Nat) (t : T)
    (hvk : validKey k) (hv2 : validKey k2) (hne : k2 ≠ k) :
    findGo (insertGo p k t).1 k2 = findGo p k2 := by
  induction p generalizing k k2 with
  | null =>
    cases k with
    | nil => rfl
    | cons c r =>
      obtain ⟨hc0, hvr⟩ := validKey_cons.1 hvk
      show findGo (insertGo .null (c :: r) t).1 k2 = _
      simp only [insertGo, if_neg hc0]
      rw [insertNew_find_other (c :: r) k2 t (by simpa using hc0) hvk hv2 hne]
      rfl
  | node sc lo hi eq pd ihlo ihhi iheq =>
    cases k with
    | nil => rfl
    | cons c r =>
      obtain ⟨hc0, hvr⟩ := validKey_cons.1 hvk
      rw [insertGo_cons, if_neg hc0]
      by_cases h1 : c < sc
      · rw [if_pos h1]
        show findGo (.node sc (insertGo lo (c :: r) t).1 hi eq pd) k2 = _
        rw [findGo_node, findGo_node]
        by_cases g1 : k2.headD 0 < sc
        · rw [if_pos g1, if_pos g1]
          exact ihlo (c :: r) k2 hvk hv2 hne
        · rw [if_neg g1, if_neg g1]
      · rw [if_neg h1]
        by_cases h2 : sc < c
        · rw [if_pos h2]
          show findGo (.node sc lo (insertGo hi (c :: r) t).1 eq pd) k2 = _
          rw [findGo_node, findGo_node]
          by_cases g1 : k2.headD 0 < sc
          · rw [if_pos g1, if_pos g1]
          · rw [if_neg g1, if_neg g1]
            by_cases g2 : sc < k2.headD 0
            · rw [if_pos g2, if_pos g2]
              exact ihhi (c :: r) k2 hvk hv2 hne
            · rw [if_neg g2, if_neg g2]
        · rw [if_neg h2]
          have hcsc : c = sc := by omega
          by_cases h3 : r.headD 0 = 0
          · rw [if_pos h3]
            have hr : r = [] := validKey_headzero hvr h3
            show findGo (.node sc lo hi eq (some t)) k2 = _
            rw [findGo_node, findGo_node]
            by_cases g1 : k2.headD 0 < sc
            · rw [if_pos g1, if_pos g1]
            · rw [if_neg g1, if_neg g1]
              by_cases g2 : sc < k2.headD 0
              · rw [if_pos g2, if_pos g2]
              · rw [if_neg g2, if_neg g2]
                have hk2 : k2 = sc :: k2.tail :=
                  eq_cons_of_headD (by omega) (by omega)
                by_cases g3 : k2.tail.headD 0 = 0
                · exfalso
                  have : k2.tail = [] := validKey_headzero (validKey_tail hv2) g3
                  apply hne
                  rw [hk2, this, hr, hcsc]
                · rw [if_neg g3, if_neg g3]
          · rw [if_neg h3]
            show findGo (.node sc lo hi (insertGo eq r t).1 pd) k2 = _
            rw [findGo_node, findGo_node]
            by_cases g1 : k2.headD 0 < sc
            · rw [if_pos g1, if_pos g1]
            · rw [if_neg g1, if_neg g1]
              by_cases g2 : sc < k2.headD 0
              · rw [if_pos g2, if_pos g2]
              · rw [if_neg g2, if_neg g2]
                by_cases g3 : k2.tail.headD 0 = 0
                · rw [if_pos g3, if_pos g3]
                · rw [if_neg g3, if_neg g3]
                  have hk2 : k2 = sc :: k2.tail :=
                    eq_cons_of_headD (by omega) (by omega)
                  refine iheq r k2.tail hvr (validKey_tail hv2) ?_
                  intro hcon
                  apply hne
                  rw [hk2, hcon, hcsc]

theorem removeGo_find_other (p : NodePtr T) (k k2 : List Nat)
    (hwf : wfTree p = true) (hvk : validKey k) (hv2 : validKey k2) (hne : k2 ≠ k) :
    findGo (removeGo p k).1 k2 = findGo p k2 := by
  induction p generalizing k k2 with
  | null => rfl
  | node sc lo hi eq pd ihlo ihhi iheq =>
    obtain ⟨hsc, halo, hahi, hwlo, hwhi, hweq⟩ := wfTree_node hwf
    by_cases hk0 : k.headD 0 = 0
    · rw [removeGo_headzero _ k hwf hk0]
    · rw [removeGo_node]
      by_cases h1 : k.headD 0 < sc
      · rw [if_pos h1]
        show findGo (.node sc (removeGo lo k).1 hi eq pd) k2 = _
        rw [findGo_node, findGo_node]
        by_cases g1 : k2.headD 0 < sc
        · rw [if_pos g1, if_pos g1]
          exact ihlo k k2 hwlo hvk hv2 hne
        · rw [if_neg g1, if_neg g1]
      · rw [if_neg h1]
        by_cases h2 : sc < k.headD 0
        · rw [if_pos h2]
          show findGo (.node sc lo (removeGo hi k).1 eq pd) k2 = _
          rw [findGo_node, findGo_node]
          by_cases g1 : k2.headD 0 < sc
          · rw [if_pos g1, if_pos g1]
          · rw [if_neg g1, if_neg g1]
            by_cases g2 : sc < k2.headD 0
            · rw [if_pos g2, if_pos g2]
              exact ihhi k k2 hwhi hvk hv2 hne
            · rw [if_neg g2, if_neg g2]
        · rw [if_neg h2]
          have hk : k = sc :: k.tail := eq_cons_of_headD (by omega) (by omega)
          by_cases h3 : k.tail.headD 0 = 0
          · have hr : k.tail = [] := validKey_headzero (validKey_tail hvk) h3
            by_cases hpd : pd.isSome = true
            · rw [if_pos ⟨h3, hpd⟩]
              show findGo (.node sc lo hi eq none) k2 = _
              rw [findGo_node, findGo_node]
              by_cases g1 : k2.headD 0 < sc
              · rw [if_pos g1, if_pos g1]
              · rw [if_neg g1, if_neg g1]
                by_cases g2 : sc < k2.headD 0
                · rw [if_pos g2, if_pos g2]
                · rw [if_neg g2, if_neg g2]
                  by_cases g3 : k2.tail.headD 0 = 0
                  · exfalso
                    have h4 : k2.tail = [] := validKey_headzero (validKey_tail hv2) g3
                    have hk2 : k2 = sc :: k2.tail := eq_cons_of_headD (by omega) (by omega)
                    apply hne
                    rw [hk2, h4, hk, hr]
                  · rw [if_neg g3, if_neg g3]
            · rw [if_neg (by intro hcon; exact hpd hcon.2)]
              rw [removeGo_headzero eq k.tail hweq h3]
          · rw [if_neg (by intro hcon; exact h3 hcon.1)]
            show findGo (.node sc lo hi (removeGo eq k.tail).1 pd) k2 = _
            rw [findGo_node, findGo_node]
            by_cases g1 : k2.headD 0 < sc
            · rw [if_pos g1, if_pos g1]
            · rw [if_neg g1, if_neg g1]
              by_cases g2 : sc < k2.headD 0
              · rw [if_pos g2, if_pos g2]
              · rw [if_neg g2, if_neg g2]
                by_cases g3 : k2.tail.headD 0 = 0
                · rw [if_pos g3, if_pos g3]
                · rw [if_neg g3, if_neg g3]
                  have hk2 : k2 = sc :: k2.tail := eq_cons_of_headD (by omega) (by omega)
                  refine iheq k.tail k2.tail hweq (validKey_tail hvk) (validKey_tail hv2) ?_
                  intro hcon
                  apply hne
                  rw [hk2, hcon]
                  exact hk.symm

theorem headD_ne_zero_of_valid {k : List Nat} (hk : k ≠ []) (hv : validKey k) :
    k.headD 0 ≠ 0 := by
  cases k with
  | nil => exact absurd rfl hk
  | cons c r => simpa using (validKey_cons.1 hv).1

/-! ## Invariant preservation: every state reachable through the public
operations satisfies `MapInv` -/

theorem MapInv_init : MapInv (tst_map.init : tst_map T) := ⟨rfl, rfl⟩

theorem MapInv_insert (m : tst_map T) (k : List Nat) (v : T)
    (hm : MapInv m) (hv : validKey k) : MapInv (m.insert k v).1 := by
  refine ⟨wfTree_insert m.root k v hm.1 hv, ?_⟩
  show m.size + (insertGo m.root k v).2.1 = (insertGo m.root k v).1.payloadCount
  rw [payloadCount_insert, hm.2]

theorem removeGo_true_payload (p : NodePtr T) (k : List Nat) (hwf : wfTree p = true)
    (h : (removeGo p k).2 = true) :
    p.payloadCount = (removeGo p k).1.payloadCount + 1 := by
  cases hf : findGo p k with
  | none =>
    rw [removeGo_absent p k hwf hf] at h
    exact absurd h (by simp)
  | some v => exact (removeGo_present p k v hf).2.2

theorem MapInv_remove (m : tst_map T) (k : List Nat) (hm : MapInv m) :
    MapInv (m.remove k).1 := by
  refine ⟨wfTree_remove m.root k hm.1, ?_⟩
  show (if (removeGo m.root k).2 then m.size - 1 else m.size) =
    (removeGo m.root k).1.payloadCount
  cases hb : (removeGo m.root k).2 with
  | false =>
    rw [if_neg (by simp), removeGo_false m.root k hb]
    exact hm.2
  | true =>
    rw [if_pos rfl]
    have := removeGo_true_payload m.root k hm.1 hb
    have h2 := hm.2
    omega

/-! ## Claim theorems: exact lookup, insertion and removal -/

/-- C4: for every container state, every non-empty key `k` (a NUL-free
string) and every value `v`, immediately after `insert(k, v)` the call
`find(k)` returns a present handle whose value equals `v`. -/
theorem insert_then_find (m : tst_map T) (k : List Nat) (v : T)
    (hk : k ≠ []) (hv : validKey k) :
    ((m.insert k v).1).find k = some v :=
  insertGo_find m.root k v (headD_ne_zero_of_valid hk hv)

/-- Witness for C4 at a concrete input. -/
theorem insert_then_find_witness :
    (((tst_map.init : tst_map Nat).insert [97] 5).1).find [97] = some 5 :=
  insert_then_find tst_map.init [97] 5 (by decide) (by decide)

/-- C7: inserting the same key twice leaves `size` at its value after the
first insert, `find` returns the second value, and the node structure does
not grow. -/
theorem insert_insert_idempotent (m : tst_map T) (k : List Nat) (v1 v2 : T)
    (hk : k ≠ []) (hv : validKey k) :
    (((m.insert k v1).1).insert k v2).1.size = (m.insert k v1).1.size ∧
      (((m.insert k v1).1).insert k v2).1.find k = some v2 ∧
      (((m.insert k v1).1).insert k v2).1.root.nodeCount =
        (m.insert k v1).1.root.nodeCount := by
  have hhd := headD_ne_zero_of_valid hk hv
  have hf1 : findGo (insertGo m.root k v1).1 k = some v1 := insertGo_find m.root k v1 hhd
  obtain ⟨hinc, hcnt⟩ := insertGo_find_some (insertGo m.root k v1).1 k v2 v1 hf1
  refine ⟨?_, insertGo_find _ k v2 hhd, hcnt⟩
  show (m.insert k v1).1.size + (insertGo (insertGo m.root k v1).1 k v2).2.1 =
    (m.insert k v1).1.size
  rw [hinc]
  exact Nat.add_zero _

/-- Witness for C7 at a concrete input. -/
theorem insert_insert_idempotent_witness :
    ((((tst_map.init : tst_map Nat).insert [97, 98] 1).1).insert [97, 98] 2).1.size =
        ((tst_map.init : tst_map Nat).insert [97, 98] 1).1.size ∧
      ((((tst_map.init : tst_map Nat).insert [97, 98] 1).1).insert [97, 98] 2).1.find [97, 98] =
        some 2 ∧
      ((((tst_map.init : tst_map Nat).insert [97, 98] 1).1).insert [97, 98] 2).1.root.nodeCount =
        ((tst_map.init : tst_map Nat).insert [97, 98] 1).1.root.nodeCount :=
  insert_insert_idempotent tst_map.init [97, 98] 1 2 (by decide) (by decide)

/-- C8: inserting the empty key leaves the container (hence `size`)
unchanged and returns the null handle, and `find` of the empty key is
always absent on a reachable state. -/
theorem insert_empty_key (m : tst_map T) (v : T) (hm : MapInv m) :
    (m.insert [] v).1.size = m.size ∧ (m.insert [] v).2 = none ∧
      m.find [] = none := by
  have h := insertGo_headzero m.root [] v rfl
  refine ⟨?_, ?_, findGo_headzero m.root [] hm.1 rfl⟩
  · show m.size + (insertGo m.root [] v).2.1 = m.size
    rw [h]
    exact Nat.add_zero _
  · show (insertGo m.root [] v).2.2 = none
    rw [h]

/-- Witness for C8 at a concrete input. -/
theorem insert_empty_key_witness :
    ((((tst_map.init : tst_map Nat).insert [97] 7).1).insert [] 9).1.size =
        ((tst_map.init : tst_map Nat).insert [97] 7).1.size ∧
      ((((tst_map.init : tst_map Nat).insert [97] 7).1).insert [] 9).2 = none ∧
      ((tst_map.init : tst_map Nat).insert [97] 7).1.find [] = none :=
  insert_empty_key ((tst_map.init : tst_map Nat).insert [97] 7).1 9 (by decide)

/-- C5: on a reachable state, removing a present key succeeds, makes the
key absent and decrements `size` by exactly one; removing an absent key
fails and changes nothing; and re-inserting after a successful removal
restores the key with the new value and increments `size` by exactly
one. -/
theorem remove_spec (m : tst_map T) (k : List Nat) (hm : MapInv m) :
    (∀ v, m.find k = some v →
      (m.remove k).2 = true ∧ (m.remove k).1.find k = none ∧
        m.size = (m.remove k).1.size + 1) ∧
    (m.find k = none →
      (m.remove k).2 = false ∧ (m.remove k).1.size = m.size ∧
        ∀ k2, (m.remove k).1.find k2 = m.find k2) ∧
    (∀ v v2, m.find k = some v →
      (((m.remove k).1.insert k v2).1).find k = some v2 ∧
        (((m.remove k).1.insert k v2).1).size = (m.remove k).1.size + 1) := by
  obtain ⟨hwf, hsz⟩ := hm
  refine ⟨?_, ?_, ?_⟩
  · intro v hf
    obtain ⟨ha, hb, hc⟩ := removeGo_present m.root k v hf
    refine ⟨ha, hb, ?_⟩
    show m.size = (if (removeGo m.root k).2 then m.size - 1 else m.size) + 1
    rw [ha, if_pos rfl]
    omega
  · intro hf
    have habs := removeGo_absent m.root k hwf hf
    refine ⟨?_, ?_, ?_⟩
    · show (removeGo m.root k).2 = false
      rw [habs]
    · show (if (removeGo m.root k).2 then m.size - 1 else m.size) = m.size
      rw [habs]
      simp
    · intro k2
      show findGo (removeGo m.root k).1 k2 = findGo m.root k2
      rw [habs]
  · intro v v2 hf
    have hf' : findGo m.root k = some v := hf
    have hhd : k.headD 0 ≠ 0 := by
      intro h0
      rw [findGo_headzero m.root k hwf h0] at hf'
      exact Option.noConfusion hf'
    obtain ⟨ha, hb, hc⟩ := removeGo_present m.root k v hf
    constructor
    · exact insertGo_find _ k v2 hhd
    · show (m.remove k).1.size + (insertGo (removeGo m.root k).1 k v2).2.1 =
        (m.remove k).1.size + 1
      rw [insertGo_find_none _ k v2 hb hhd]

/-- Witness for C5 at a concrete input (key "a" present with value 3). -/
theorem remove_spec_witness :
    ((((tst_map.init : tst_map Nat).insert [97] 3).1).remove [97]).2 = true ∧
      ((((tst_map.init : tst_map Nat).insert [97] 3).1).remove [97]).1.find [97] = none ∧
      ((tst_map.init : tst_map Nat).insert [97] 3).1.size =
        ((((tst_map.init : tst_map Nat).insert [97] 3).1).remove [97]).1.size + 1 :=
  (remove_spec ((tst_map.init : tst_map Nat).insert [97] 3).1 [97] (by decide)).1 3 (by decide)

/-- C6: on a reachable state, removing key `k` leaves every other present
valid key `k2` findable with its original value. -/
theorem remove_preserves_other (m : tst_map T) (k k2 : List Nat) (v : T)
    (hm : MapInv m) (hvk : validKey k) (hv2 : validKey k2) (hne : k ≠ k2)
    (hf : m.find k2 = some v) : ((m.remove k).1).find k2 = some v := by
  have h := removeGo_find_other m.root k k2 hm.1 hvk hv2 (Ne.symm hne)
  show findGo (removeGo m.root k).1 k2 = some v
  rw [h]
  exact hf

/-- Witness for C6: after inserting "cat" and "car" and removing "cat",
"car" is still findable with its original value. -/
theorem remove_preserves_other_witness :
    (((((tst_map.init : tst_map Nat).insert [99, 97, 116] 1).1).insert
        [99, 97, 114] 2).1.remove [99, 97, 116]).1.find [99, 97, 114] = some 2 :=
  remove_preserves_other
    ((((tst_map.init : tst_map Nat).insert [99, 97, 116] 1).1).insert [99, 97, 114] 2).1
    [99, 97, 116] [99, 97, 114] 2 (by decide) (by decide) (by decide) (by decide) (by decide)

/-- C10: `sequence`, `pmsearch` and `nearsearch` clear the caller-supplied
output container first, so the result is independent of its prior
contents. -/
theorem out_container_cleared (m : tst_map T) (q : List Nat) (d : Int)
    (c c' : List (List Nat × T)) :
    m.sequence c = m.sequence c' ∧ m.pmsearch q c = m.pmsearch q c' ∧
      m.nearsearch q d c = m.nearsearch q d c' :=
  ⟨rfl, rfl, rfl⟩

/-- C1 (code-bug evidence): `__travel` visits a node's own payload only
after its `lokid`, `eqkid` and `hikid` subtrees, so `sequence`/`foreach`
do not emit keys in ascending comparator order: with keys "a" and "b"
stored, the output is ("b", 2) before ("a", 1) even though "a" < "b". -/
theorem travel_emits_child_before_self :
    ((((tst_map.init : tst_map Nat).insert [97] 1).1).insert [98] 2).1.sequence [] =
        [([98], 2), ([97], 1)] ∧ ([97] : List Nat) < [98] := by
  constructor
  · rfl
  · decide

/-- C2: with exactly ("cat", 1), ("bat", 2), ("cats", 3) stored,
`nearsearch("cat", 1, out)` reports all three pairs, and every reported
key is within combined substitution/length-difference cost 1 of "cat". -/
theorem nearsearch_example :
    (([99, 97, 116], 1) ∈
        (((((tst_map.init : tst_map Nat).insert [99, 97, 116] 1).1).insert
            [98, 97, 116] 2).1.insert [99, 97, 116, 115] 3).1.nearsearch [99, 97, 116] 1 [] ∧
      ([98, 97, 116], 2) ∈
        (((((tst_map.init : tst_map Nat).insert [99, 97, 116] 1).1).insert
            [98, 97, 116] 2).1.insert [99, 97, 116, 115] 3).1.nearsearch [99, 97, 116] 1 [] ∧
      ([99, 97, 116, 115], 3) ∈
        (((((tst_map.init : tst_map Nat).insert [99, 97, 116] 1).1).insert
            [98, 97, 116] 2).1.insert [99, 97, 116, 115] 3).1.nearsearch [99, 97, 116] 1 []) ∧
    ((((((tst_map.init : tst_map Nat).insert [99, 97, 116] 1).1).insert
          [98, 97, 116] 2).1.insert [99, 97, 116, 115] 3).1.nearsearch [99, 97, 116] 1 []).all
      (fun pr => decide (nearCost [99, 97, 116] pr.1 ≤ 1)) = true := by
  decide

/-! ## Wildcard pattern search: correctness of `__pmsearch` -/

theorem pmAccept_nil_iff (k : List Nat) : pmAccept [] k ↔ k = [] := by
  unfold pmAccept
  constructor
  · intro ⟨hlen, _⟩
    exact List.length_eq_zero.1 hlen.symm
  · intro h
    subst h
    exact ⟨rfl, fun i hi => absurd hi (by simp)⟩

theorem pmAccept_cons_iff {c a : Nat} {qr kr : List Nat} :
    pmAccept (c :: qr) (a :: kr) ↔ (c = dotChar ∨ c = a) ∧ pmAccept qr kr := by
  unfold pmAccept
  constructor
  · intro ⟨hlen, hpos⟩
    refine ⟨?_, ?_, ?_⟩
    · have := hpos 0 (by simp)
      simpa using this
    · simpa using hlen
    · intro i hi
      have := hpos (i + 1) (by simpa using Nat.succ_lt_succ hi)
      simpa using this
  · intro ⟨h0, hlen, hpos⟩
    refine ⟨by simpa using hlen, ?_⟩
    intro i hi
    cases i with
    | zero => simpa using h0
    | succ j =>
      simp only [List.getD_cons_succ]
      exact hpos j (by simpa using hi)

theorem pmAccept_cons_nil {c : Nat} {qr : List Nat} : ¬ pmAccept (c :: qr) [] := by
  intro ⟨hlen, _⟩
  simp at hlen

theorem pmsearchGo_node (sc : Nat) (lo hi eq : NodePtr T) (pd : Option T)
    (s cur : List Nat) :
    pmsearchGo (.node sc lo hi eq pd) s cur =
      if s.headD 0 = 0 then []
      else
        (if s.headD 0 = dotChar ∨ s.headD 0 < sc then pmsearchGo lo s cur else []) ++
        (if s.headD 0 = dotChar ∨ s.headD 0 = sc then
          (if s.tail.headD 0 = 0 then
            (match pd with
             | some v => [(cur ++ [sc], v)]
             | none => [])
          else pmsearchGo eq s.tail (cur ++ [sc]))
        else []) ++
        (if s.headD 0 = dotChar ∨ sc < s.headD 0 then pmsearchGo hi s cur else []) := by
  simp only [pmsearchGo]
  by_cases h0 : s.headD 0 = 0
  · rw [if_pos h0, if_pos h0]
  · rw [if_neg h0, if_neg h0]
    have hmid : (s.headD 0 = dotChar ∨ (¬ s.headD 0 < sc ∧ ¬ sc < s.headD 0)) ↔
        (s.headD 0 = dotChar ∨ s.headD 0 = sc) := by
      constructor
      · rintro (h | h)
        · exact Or.inl h
        · exact Or.inr (by omega)
      · rintro (h | h)
        · exact Or.inl h
        · exact Or.inr (by omega)
    rw [if_congr hmid rfl rfl]

theorem pmsearchGo_iff (p : NodePtr T) : ∀ (q cur k : List Nat) (v : T),
    wfTree p = true → validKey q →
    ((k, v) ∈ pmsearchGo p q cur ↔
      ∃ k2, k = cur ++ k2 ∧ validKey k2 ∧ pmAccept q k2 ∧ findGo p k2 = some v) := by
  induction p with
  | null =>
    intro q cur k v hwf hq
    simp [pmsearchGo, findGo]
  | node sc lo hi eq pd ihlo ihhi iheq =>
    intro q cur k v hwf hq
    obtain ⟨hsc, halo, hahi, hwlo, hwhi, hweq⟩ := wfTree_node hwf
    rw [pmsearchGo_node]
    cases q with
    | nil =>
      rw [if_pos (show ([] : List Nat).headD 0 = 0 from rfl)]
      constructor
      · intro h
        exact absurd h (List.not_mem_nil _)
      · rintro ⟨k2, hk, hval, hacc, hfind⟩
        rw [(pmAccept_nil_iff k2).1 hacc] at hfind
        rw [findGo_headzero _ [] hwf rfl] at hfind
        exact Option.noConfusion hfind
    | cons c qr =>
      obtain ⟨hc0, hvqr⟩ := validKey_cons.1 hq
      simp only [List.headD_cons, List.tail_cons]
      rw [if_neg hc0]
      simp only [List.mem_append]
      constructor
      · rintro ((h | h) | h)
        · by_cases g : c = dotChar ∨ c < sc
          · rw [if_pos g] at h
            obtain ⟨k2, hk, hval, hacc, hfind⟩ := (ihlo (c :: qr) cur k v hwlo hq).1 h
            refine ⟨k2, hk, hval, hacc, ?_⟩
            rw [findGo_node]
            have hhead : k2.headD 0 < sc :=
              of_decide_eq_true (findGo_some_head lo k2 v halo hfind)
            rw [if_pos hhead]
            exact hfind
          · rw [if_neg g] at h
            exact absurd h (List.not_mem_nil _)
        · by_cases g : c = dotChar ∨ c = sc
          · rw [if_pos g] at h
            by_cases gq : qr.headD 0 = 0
            · rw [if_pos gq] at h
              have hqr : qr = [] := validKey_headzero hvqr gq
              cases pd with
              | none => exact absurd h (List.not_mem_nil _)
              | some w =>
                simp only [List.mem_singleton, Prod.mk.injEq] at h
                refine ⟨[sc], h.1, ?_, ?_, ?_⟩
                · intro x hx
                  simp only [List.mem_singleton] at hx
                  omega
                · rw [hqr]
                  exact pmAccept_cons_iff.2 ⟨g, (pmAccept_nil_iff []).2 rfl⟩
                · rw [findGo_node]
                  simp only [List.headD_cons, List.tail_cons]
                  rw [if_neg (lt_irrefl sc), if_neg (lt_irrefl sc),
                    if_pos (show ([] : List Nat).headD 0 = 0 from rfl), h.2]
            · rw [if_neg gq] at h
              obtain ⟨k2, hk, hval, hacc, hfind⟩ :=
                (iheq qr (cur ++ [sc]) k v hweq hvqr).1 h
              refine ⟨sc :: k2, ?_, ?_, ?_, ?_⟩
              · rw [hk, List.append_assoc]
                rfl
              · exact validKey_cons.2 ⟨by omega, hval⟩
              · exact pmAccept_cons_iff.2 ⟨g, hacc⟩
              · rw [findGo_node]
                simp only [List.headD_cons, List.tail_cons]
                rw [if_neg (lt_irrefl sc), if_neg (lt_irrefl sc)]
                by_cases g3 : k2.headD 0 = 0
                · exfalso
                  rw [findGo_headzero eq k2 hweq g3] at hfind
                  exact Option.noConfusion hfind
                · rw [if_neg g3]
                  exact hfind
          · rw [if_neg g] at h
            exact absurd h (List.not_mem_nil _)
        · by_cases g : c = dotChar ∨ sc < c
          · rw [if_pos g] at h
            obtain ⟨k2, hk, hval, hacc, hfind⟩ := (ihhi (c :: qr) cur k v hwhi hq).1 h
            refine ⟨k2, hk, hval, hacc, ?_⟩
            rw [findGo_node]
            have hhead : sc < k2.headD 0 :=
              of_decide_eq_true (findGo_some_head hi k2 v hahi hfind)
            rw [if_neg (by omega : ¬ k2.headD 0 < sc), if_pos hhead]
            exact hfind
          · rw [if_neg g] at h
            exact absurd h (List.not_mem_nil _)
      · rintro ⟨k2, hk, hval, hacc, hfind⟩
        cases k2 with
        | nil => exact absurd hacc pmAccept_cons_nil
        | cons a kr =>
          obtain ⟨g0, haccr⟩ := pmAccept_cons_iff.1 hacc
          obtain ⟨ha0, hvkr⟩ := validKey_cons.1 hval
          rw [findGo_node] at hfind
          simp only [List.headD_cons, List.tail_cons] at hfind
          by_cases r1 : a < sc
          · rw [if_pos r1] at hfind
            have g : c = dotChar ∨ c < sc := by
              rcases g0 with h | h
              · exact Or.inl h
              · exact Or.inr (by omega)
            refine Or.inl (Or.inl ?_)
            rw [if_pos g]
            exact (ihlo (c :: qr) cur k v hwlo hq).2 ⟨a :: kr, hk, hval, hacc, hfind⟩
          · rw [if_neg r1] at hfind
            by_cases r2 : sc < a
            · rw [if_pos r2] at hfind
              have g : c = dotChar ∨ sc < c := by
                rcases g0 with h | h
                · exact Or.inl h
                · exact Or.inr (by omega)
              refine Or.inr ?_
              rw [if_pos g]
              exact (ihhi (c :: qr) cur k v hwhi hq).2 ⟨a :: kr, hk, hval, hacc, hfind⟩
            · have hasc : a = sc := by omega
              rw [hasc] at g0 hk
              rw [if_neg r2] at hfind
              by_cases r3 : kr.headD 0 = 0
              · rw [if_pos r3] at hfind
                have hkr : kr = [] := validKey_headzero hvkr r3
                subst hkr
                have hqr : qr = [] := List.length_eq_zero.1 haccr.1
                refine Or.inl (Or.inr ?_)
                rw [if_pos g0, if_pos (by rw [hqr]; rfl), hfind]
                simp [hk]
              · rw [if_neg r3] at hfind
                have hqrne : qr ≠ [] := by
                  intro hqr
                  subst hqr
                  have := (pmAccept_nil_iff kr).1 haccr
                  subst this
                  exact r3 rfl
                have hqrh : qr.headD 0 ≠ 0 := headD_ne_zero_of_valid hqrne hvqr
                refine Or.inl (Or.inr ?_)
                rw [if_pos g0, if_neg hqrh]
                refine (iheq qr (cur ++ [sc]) k v hweq hvqr).2 ⟨kr, ?_, hvkr, haccr, hfind⟩
                rw [hk, List.append_assoc]
                rfl

/-- C3: on a reachable state, `pmsearch` produces exactly the (key, value)
pairs whose NUL-free key has the pattern's length and matches it at every
position ('.' is the single-character wildcard, all other pattern
characters must compare equal); in particular with exactly ("cat", 1),
("car", 2), ("cot", 3) stored, `pmsearch("c.t")` yields exactly
("cat", 1) and ("cot", 3). -/
theorem pmsearch_spec (m : tst_map T) (q k : List Nat) (v : T)
    (c0 : List (List Nat × T)) (hm : MapInv m) (hq : validKey q) (_hqne : q ≠ []) :
    ((k, v) ∈ m.pmsearch q c0 ↔ validKey k ∧ pmAccept q k ∧ m.find k = some v) ∧
      (((((tst_map.init : tst_map Nat).insert [99, 97, 116] 1).1.insert
          [99, 97, 114] 2).1.insert [99, 111, 116] 3).1.pmsearch [99, 46, 116] [] =
        [([99, 97, 116], 1), ([99, 111, 116], 3)]) := by
  have h := pmsearchGo_iff m.root q [] k v hm.1 hq
  constructor
  · constructor
    · intro hmem
      obtain ⟨k2, hk, hval, hacc, hfind⟩ := h.1 hmem
      rw [List.nil_append] at hk
      subst hk
      exact ⟨hval, hacc, hfind⟩
    · intro ⟨hval, hacc, hfind⟩
      show (k, v) ∈ pmsearchGo m.root q []
      exact h.2 ⟨k, (List.nil_append k).symm, hval, hacc, hfind⟩
  · rfl

/-- Witness for C3 at a concrete input: pattern "c.t" on the example tree
accepts key "cot" with value 3. -/
theorem pmsearch_spec_witness :
    ([99, 111, 116], 3) ∈
      (((((tst_map.init : tst_map Nat).insert [99, 97, 116] 1).1).insert
        [99, 97, 114] 2).1.insert [99, 111, 116] 3).1.pmsearch [99, 46, 116] [] :=
  ((pmsearch_spec
      (((((tst_map.init : tst_map Nat).insert [99, 97, 116] 1).1).insert
        [99, 97, 114] 2).1.insert [99, 111, 116] 3).1
      [99, 46, 116] [99, 111, 116] 3 [] (by decide) (by decide) (by decide)).1).mpr
    ⟨by decide, by decide, by decide⟩

/-! ## Traversal: membership characterisation, length, key distinctness -/

theorem travel_iff (p : NodePtr T) : ∀ (cur k : List Nat) (v : T),
    wfTree p = true →
    ((k, v) ∈ travel p cur ↔
      ∃ k2, k = cur ++ k2 ∧ validKey k2 ∧ findGo p k2 = some v) := by
  induction p with
  | null =>
    intro cur k v hwf
    simp [travel, findGo]
  | node sc lo hi eq pd ihlo ihhi iheq =>
    intro cur k v hwf
    obtain ⟨hsc, halo, hahi, hwlo, hwhi, hweq⟩ := wfTree_node hwf
    show (k, v) ∈ travel lo cur ++ travel eq (cur ++ [sc]) ++ travel hi cur ++ _ ↔ _
    simp only [List.mem_append]
    constructor
    · rintro (((h | h) | h) | h)
      · obtain ⟨k2, hk, hval, hfind⟩ := (ihlo cur k v hwlo).1 h
        refine ⟨k2, hk, hval, ?_⟩
        rw [findGo_node]
        have hhead : k2.headD 0 < sc :=
          of_decide_eq_true (findGo_some_head lo k2 v halo hfind)
        rw [if_pos hhead]
        exact hfind
      · obtain ⟨k2, hk, hval, hfind⟩ := (iheq (cur ++ [sc]) k v hweq).1 h
        refine ⟨sc :: k2, ?_, ?_, ?_⟩
        · rw [hk, List.append_assoc]
          rfl
        · exact validKey_cons.2 ⟨by omega, hval⟩
        · rw [findGo_node]
          simp only [List.headD_cons, List.tail_cons]
          rw [if_neg (lt_irrefl sc), if_neg (lt_irrefl sc)]
          by_cases g3 : k2.headD 0 = 0
          · exfalso
            rw [findGo_headzero eq k2 hweq g3] at hfind
            exact Option.noConfusion hfind
          · rw [if_neg g3]
            exact hfind
      · obtain ⟨k2, hk, hval, hfind⟩ := (ihhi cur k v hwhi).1 h
        refine ⟨k2, hk, hval, ?_⟩
        rw [findGo_node]
        have hhead : sc < k2.headD 0 :=
          of_decide_eq_true (findGo_some_head hi k2 v hahi hfind)
        rw [if_neg (by omega : ¬ k2.headD 0 < sc), if_pos hhead]
        exact hfind
      · cases pd with
        | none => simp [emitSelf] at h
        | some w =>
          simp only [emitSelf, List.mem_singleton, Prod.mk.injEq] at h
          refine ⟨[sc], h.1, ?_, ?_⟩
          · intro x hx
            simp only [List.mem_singleton] at hx
            omega
          · rw [findGo_node]
            simp only [List.headD_cons, List.tail_cons]
            rw [if_neg (lt_irrefl sc), if_neg (lt_irrefl sc),
              if_pos (show ([] : List Nat).headD 0 = 0 from rfl), h.2]
    · rintro ⟨k2, hk, hval, hfind⟩
      cases k2 with
      | nil =>
        rw [findGo_headzero _ [] hwf rfl] at hfind
        exact absurd hfind (by simp)
      | cons a kr =>
        obtain ⟨ha0, hvkr⟩ := validKey_cons.1 hval
        rw [findGo_node] at hfind
        simp only [List.headD_cons, List.tail_cons] at hfind
        by_cases r1 : a < sc
        · rw [if_pos r1] at hfind
          exact Or.inl (Or.inl (Or.inl ((ihlo cur k v hwlo).2 ⟨a :: kr, hk, hval, hfind⟩)))
        · rw [if_neg r1] at hfind
          by_cases r2 : sc < a
          · rw [if_pos r2] at hfind
            exact Or.inl (Or.inr ((ihhi cur k v hwhi).2 ⟨a :: kr, hk, hval, hfind⟩))
          · have hasc : a = sc := by omega
            rw [hasc] at hk
            rw [if_neg r2] at hfind
            by_cases r3 : kr.headD 0 = 0
            · rw [if_pos r3] at hfind
              have hkr : kr = [] := validKey_headzero hvkr r3
              subst hkr
              refine Or.inr ?_
              rw [hfind]
              simp [emitSelf, hk]
            · rw [if_neg r3] at hfind
              refine Or.inl (Or.inl (Or.inr ((iheq (cur ++ [sc]) k v hweq).2
                ⟨kr, ?_, hvkr, hfind⟩)))
              rw [hk, List.append_assoc]
              rfl

theorem travel_length (p : NodePtr T) : ∀ cur : List Nat,
    (travel p cur).length = p.payloadCount := by
  induction p with
  | null => intro cur; rfl
  | node sc lo hi eq pd ihlo ihhi iheq =>
    intro cur
    show (travel lo cur ++ travel eq (cur ++ [sc]) ++ travel hi cur ++
      emitSelf cur sc pd).length = _
    simp only [List.length_append, ihlo, ihhi, iheq, NodePtr.payloadCount]
    cases pd <;> simp [emitSelf] <;> omega

theorem travel_key_mem (p : NodePtr T) (cur k : List Nat) (hwf : wfTree p = true) :
    k ∈ (travel p cur).map Prod.fst ↔
      ∃ k2, k = cur ++ k2 ∧ validKey k2 ∧ ∃ v, findGo p k2 = some v := by
  simp only [List.mem_map]
  constructor
  · rintro ⟨⟨k', v⟩, hmem, rfl⟩
    obtain ⟨k2, hk, hval, hfind⟩ := (travel_iff p cur k' v hwf).1 hmem
    exact ⟨k2, hk, hval, v, hfind⟩
  · rintro ⟨k2, hk, hval, v, hfind⟩
    exact ⟨(k, v), (travel_iff p cur k v hwf).2 ⟨k2, hk, hval, hfind⟩, rfl⟩

theorem travel_keys_nodup (p : NodePtr T) : ∀ cur, wfTree p = true →
    ((travel p cur).map Prod.fst).Nodup := by
  induction p with
  | null =>
    intro cur hwf
    simp [travel]
  | node sc lo hi eq pd ihlo ihhi iheq =>
    intro cur hwf
    obtain ⟨hsc, halo, hahi, hwlo, hwhi, hweq⟩ := wfTree_node hwf
    have memlo : ∀ x, x ∈ (travel lo cur).map Prod.fst →
        ∃ y, x = cur ++ y ∧ y.headD 0 < sc := by
      intro x hx
      obtain ⟨k2, hk, hval, v, hfind⟩ := (travel_key_mem lo cur x hwlo).1 hx
      exact ⟨k2, hk, of_decide_eq_true (findGo_some_head lo k2 v halo hfind)⟩
    have memhi : ∀ x, x ∈ (travel hi cur).map Prod.fst →
        ∃ y, x = cur ++ y ∧ sc < y.headD 0 := by
      intro x hx
      obtain ⟨k2, hk, hval, v, hfind⟩ := (travel_key_mem hi cur x hwhi).1 hx
      exact ⟨k2, hk, of_decide_eq_true (findGo_some_head hi k2 v hahi hfind)⟩
    have memeq : ∀ x, x ∈ (travel eq (cur ++ [sc])).map Prod.fst →
        ∃ y, x = cur ++ sc :: y ∧ y ≠ [] := by
      intro x hx
      obtain ⟨k2, hk, hval, v, hfind⟩ := (travel_key_mem eq (cur ++ [sc]) x hweq).1 hx
      refine ⟨k2, by rw [hk, List.append_assoc]; rfl, ?_⟩
      rintro rfl
      rw [findGo_headzero eq [] hweq rfl] at hfind
      exact Option.noConfusion hfind
    have memd : ∀ x, x ∈ (emitSelf cur sc pd : List (List Nat × T)).map Prod.fst →
        x = cur ++ [sc] := by
      intro x hx
      cases pd with
      | none => simp [emitSelf] at hx
      | some w => simpa [emitSelf] using hx
    show ((travel lo cur ++ travel eq (cur ++ [sc]) ++ travel hi cur ++
      emitSelf cur sc pd).map Prod.fst).Nodup
    simp only [List.map_append]
    have dloeq : ((travel lo cur).map Prod.fst).Disjoint
        ((travel eq (cur ++ [sc])).map Prod.fst) := by
      intro x hx1 hx2
      obtain ⟨y1, he1, hp1⟩ := memlo x hx1
      obtain ⟨y2, he2, hp2⟩ := memeq x hx2
      have h12 : y1 = sc :: y2 := List.append_cancel_left (he1.symm.trans he2)
      rw [h12] at hp1
      simp only [List.headD_cons] at hp1
      omega
    have dlohi : ((travel lo cur).map Prod.fst).Disjoint
        ((travel hi cur).map Prod.fst) := by
      intro x hx1 hx2
      obtain ⟨y1, he1, hp1⟩ := memlo x hx1
      obtain ⟨y2, he2, hp2⟩ := memhi x hx2
      have h12 : y1 = y2 := List.append_cancel_left (he1.symm.trans he2)
      rw [h12] at hp1
      omega
    have deqhi : ((travel eq (cur ++ [sc])).map Prod.fst).Disjoint
        ((travel hi cur).map Prod.fst) := by
      intro x hx1 hx2
      obtain ⟨y1, he1, hp1⟩ := memeq x hx1
      obtain ⟨y2, he2, hp2⟩ := memhi x hx2
      have h12 : sc :: y1 = y2 := List.append_cancel_left (he1.symm.trans he2)
      rw [← h12] at hp2
      simp only [List.headD_cons] at hp2
      omega
    have dlod : ((travel lo cur).map Prod.fst).Disjoint
        ((emitSelf cur sc pd : List (List Nat × T)).map Prod.fst) := by
      intro x hx1 hx2
      obtain ⟨y1, he1, hp1⟩ := memlo x hx1
      have he2 := memd x hx2
      have h12 : y1 = [sc] := List.append_cancel_left (he1.symm.trans he2)
      rw [h12] at hp1
      simp only [List.headD_cons] at hp1
      omega
    have deqd : ((travel eq (cur ++ [sc])).map Prod.fst).Disjoint
        ((emitSelf cur sc pd : List (List Nat × T)).map Prod.fst) := by
      intro x hx1 hx2
      obtain ⟨y1, he1, hp1⟩ := memeq x hx1
      have he2 := memd x hx2
      have h12 : sc :: y1 = [sc] := List.append_cancel_left (he1.symm.trans he2)
      exact hp1 (List.cons.inj h12).2
    have dhid : ((travel hi cur).map Prod.fst).Disjoint
        ((emitSelf cur sc pd : List (List Nat × T)).map Prod.fst) := by
      intro x hx1 hx2
      obtain ⟨y1, he1, hp1⟩ := memhi x hx1
      have he2 := memd x hx2
      have h12 : y1 = [sc] := List.append_cancel_left (he1.symm.trans he2)
      rw [h12] at hp1
      simp only [List.headD_cons] at hp1
      omega
    have ndd : ((emitSelf cur sc pd : List (List Nat × T)).map Prod.fst).Nodup := by
      cases pd <;> simp [emitSelf]
    refine List.Nodup.append (List.Nodup.append (List.Nodup.append
      (ihlo cur hwlo) (iheq (cur ++ [sc]) hweq) dloeq) (ihhi cur hwhi) ?_) ndd ?_
    · exact List.disjoint_append_left.2 ⟨dlohi, deqhi⟩
    · exact List.disjoint_append_left.2
        ⟨List.disjoint_append_left.2 ⟨dlod, deqd⟩, dhid⟩

/-! ## Copy via re-traversal and re-insertion -/

theorem foldl_insert_find_notmem (L : List (List Nat × T)) : ∀ (m : tst_map T)
    (k : List Nat), validKey k → (∀ pr ∈ L, validKey pr.1) →
    k ∉ L.map Prod.fst →
    (L.foldl (fun b kv => (b.insert kv.1 kv.2).1) m).find k = m.find k := by
  induction L with
  | nil =>
    intro m k _ _ _
    rfl
  | cons hd tl ih =>
    obtain ⟨k1, v1⟩ := hd
    intro m k hvk hvL hnot
    rw [List.foldl_cons]
    simp only [List.map_cons, List.mem_cons, not_or] at hnot
    rw [ih _ k hvk (fun pr hpr => hvL pr (List.mem_cons_of_mem _ hpr)) hnot.2]
    show findGo (insertGo m.root k1 v1).1 k = findGo m.root k
    exact insertGo_find_other m.root k1 k v1
      (hvL (k1, v1) (List.mem_cons_self _ _)) hvk hnot.1

theorem foldl_insert_find_mem (L : List (List Nat × T)) : ∀ (m : tst_map T)
    (k : List Nat) (v : T), (k, v) ∈ L → validKey k → k ≠ [] →
    (∀ pr ∈ L, validKey pr.1) → (L.map Prod.fst).Nodup →
    (L.foldl (fun b kv => (b.insert kv.1 kv.2).1) m).find k = some v := by
  induction L with
  | nil =>
    intro m k v h
    exact absurd h (List.not_mem_nil _)
  | cons hd tl ih =>
    obtain ⟨k1, v1⟩ := hd
    intro m k v hmem hvk hkne hvL hnd
    rw [List.foldl_cons]
    simp only [List.map_cons] at hnd
    obtain ⟨hnotin, hndtl⟩ := List.nodup_cons.1 hnd
    rcases List.mem_cons.1 hmem with heq | htl
    · simp only [Prod.mk.injEq] at heq
      obtain ⟨hk, hv⟩ := heq
      subst hk
      subst hv
      rw [foldl_insert_find_notmem tl _ k hvk
        (fun pr hpr => hvL pr (List.mem_cons_of_mem _ hpr)) hnotin]
      show findGo (insertGo m.root k v).1 k = some v
      exact insertGo_find m.root k v (headD_ne_zero_of_valid hkne hvk)
    · exact ih _ k v htl hvk hkne
        (fun pr hpr => hvL pr (List.mem_cons_of_mem _ hpr)) hndtl

theorem foldl_insert_size (L : List (List Nat × T)) : ∀ (m : tst_map T),
    (∀ pr ∈ L, validKey pr.1 ∧ pr.1 ≠ []) → (L.map Prod.fst).Nodup →
    (∀ pr ∈ L, m.find pr.1 = none) →
    (L.foldl (fun b kv => (b.insert kv.1 kv.2).1) m).size = m.size + L.length := by
  induction L with
  | nil =>
    intro m _ _ _
    exact (Nat.add_zero _).symm
  | cons hd tl ih =>
    obtain ⟨k1, v1⟩ := hd
    intro m hv hnd hnone
    rw [List.foldl_cons]
    simp only [List.map_cons] at hnd
    obtain ⟨hnotin, hndtl⟩ := List.nodup_cons.1 hnd
    obtain ⟨hvk1, hk1ne⟩ := hv (k1, v1) (List.mem_cons_self _ _)
    have hsz1 : (m.insert k1 v1).1.size = m.size + 1 := by
      show m.size + (insertGo m.root k1 v1).2.1 = m.size + 1
      rw [insertGo_find_none m.root k1 v1 (hnone (k1, v1) (List.mem_cons_self _ _))
        (headD_ne_zero_of_valid hk1ne hvk1)]
    have hrest : ∀ pr ∈ tl, (m.insert k1 v1).1.find pr.1 = none := by
      intro pr hpr
      have hprne : pr.1 ≠ k1 := by
        intro h
        exact hnotin (h ▸ List.mem_map.2 ⟨pr, hpr, rfl⟩)
      show findGo (insertGo m.root k1 v1).1 pr.1 = none
      rw [insertGo_find_other m.root k1 pr.1 v1 hvk1
        (hv pr (List.mem_cons_of_mem _ hpr)).1 hprne]
      exact hnone pr (List.mem_cons_of_mem _ hpr)
    rw [ih (m.insert k1 v1).1 (fun pr hpr => hv pr (List.mem_cons_of_mem _ hpr))
      hndtl hrest, hsz1]
    simp only [List.length_cons]
    omega

theorem travel_pairs_valid (A : tst_map T) (hA : MapInv A) :
    ∀ pr ∈ travel A.root [], validKey pr.1 ∧ pr.1 ≠ [] := by
  rintro ⟨k', v⟩ hpr
  obtain ⟨k2, hk, hval, hfind⟩ := (travel_iff A.root [] k' v hA.1).1 hpr
  rw [List.nil_append] at hk
  subst hk
  refine ⟨hval, ?_⟩
  rintro rfl
  rw [findGo_headzero A.root [] hA.1 rfl] at hfind
  exact Option.noConfusion hfind

theorem copy_find (A : tst_map T) (k : List Nat) (hA : MapInv A)
    (hvk : validKey k) : A.copy.find k = A.find k := by
  have hvL : ∀ pr ∈ travel A.root [], validKey pr.1 :=
    fun pr hpr => (travel_pairs_valid A hA pr hpr).1
  cases hf : A.find k with
  | some v =>
    have hf' : findGo A.root k = some v := hf
    have hmem : (k, v) ∈ travel A.root [] :=
      (travel_iff A.root [] k v hA.1).2 ⟨k, (List.nil_append k).symm, hvk, hf'⟩
    have hkne : k ≠ [] := by
      rintro rfl
      rw [findGo_headzero A.root [] hA.1 rfl] at hf'
      exact Option.noConfusion hf'
    exact foldl_insert_find_mem (travel A.root []) tst_map.init k v hmem hvk hkne
      hvL (travel_keys_nodup A.root [] hA.1)
  | none =>
    have hnot : k ∉ (travel A.root []).map Prod.fst := by
      intro hmem
      obtain ⟨k2, hk2, hval2, v, hfind2⟩ := (travel_key_mem A.root [] k hA.1).1 hmem
      rw [List.nil_append] at hk2
      subst hk2
      have hf' : findGo A.root k = none := hf
      rw [hf'] at hfind2
      exact Option.noConfusion hfind2
    exact foldl_insert_find_notmem (travel A.root []) tst_map.init k hvk hvL hnot

theorem copy_size (A : tst_map T) (hA : MapInv A) : A.copy.size = A.size := by
  have h := foldl_insert_size (travel A.root []) tst_map.init
    (travel_pairs_valid A hA) (travel_keys_nodup A.root [] hA.1)
    (fun pr _ => rfl)
  show (List.foldl (fun b kv => (b.insert kv.1 kv.2).1) tst_map.init
    (travel A.root [])).size = A.size
  rw [h, travel_length A.root [], hA.2]
  exact Nat.zero_add _

/-- C9: copy construction re-traverses the source and re-inserts every
pair into a fresh container, so the copy holds exactly the same
key-to-value mapping (for NUL-free keys) and the same `size` as the
source; the copy shares no state with the source, so later mutation of
the copy cannot affect the source. -/
theorem copy_spec (A : tst_map T) (hA : MapInv A) :
    (∀ k, validKey k → A.copy.find k = A.find k) ∧ A.copy.size = A.size :=
  ⟨fun k hvk => copy_find A k hA hvk, copy_size A hA⟩

/-- Witness for C9 at a concrete input: copying a two-element container
preserves lookups and size. -/
theorem copy_spec_witness :
    ((((tst_map.init : tst_map Nat).insert [99, 97, 116] 1).1.insert
        [99, 97, 114] 2).1.copy.find [99, 97, 116] =
      (((tst_map.init : tst_map Nat).insert [99, 97, 116] 1).1.insert
        [99, 97, 114] 2).1.find [99, 97, 116]) ∧
    (((tst_map.init : tst_map Nat).insert [99, 97, 116] 1).1.insert
        [99, 97, 114] 2).1.copy.size =
      (((tst_map.init : tst_map Nat).insert [99, 97, 116] 1).1.insert
        [99, 97, 114] 2).1.size :=
  ⟨(copy_spec (((tst_map.init : tst_map Nat).insert [99, 97, 116] 1).1.insert
      [99, 97, 114] 2).1 (by decide)).1 [99, 97, 116] (by decide),
   (copy_spec (((tst_map.init : tst_map Nat).insert [99, 97, 116] 1).1.insert
      [99, 97, 114] 2).1 (by decide)).2⟩
